import Mathlib

/-!
Shallow embedding of the gitsmith core (gitsmith-core/src/patches.rs,
pull_request.rs, repo.rs, account.rs and gitsmith/src/commands/send.rs).

Modelling choices:
* nostr events are records; the signed event id is modelled as a
  deterministic string encoding of the signed content (`eventIdCalc`),
  mirroring the fact that a nostr id is a deterministic hash of
  (kind, pubkey, created_at, tags, content).  No injectivity of the
  encoding is assumed anywhere.
* the aggregator is modelled on the batch of already-received events;
  the `HashMap<EventId, PullRequest>` is modelled as an association
  list whose `insert` replaces in place (first-insertion key order),
  a deterministic resolution of the map's unspecified iteration order.
* `EventId::parse` of the reply tag value is modelled as the identity;
  no claim distinguishes an unparseable id from an unknown one.
-/

namespace Gitsmith

/-- Event kinds, from gitsmith-core/src/patches.rs. -/
def KIND_PATCH : Nat := 1617

/-- Kind for pull request events. -/
def KIND_PULL_REQUEST : Nat := 1618

/-- Kind for pull request updates. -/
def KIND_PULL_REQUEST_UPDATE : Nat := 1619

/-- A signed nostr event (nostr::Event as used by gitsmith). -/
structure Event where
  id : String
  kind : Nat
  pubkey : String
  created_at : Nat
  tags : List (List String)
  content : String
deriving DecidableEq

/-- A signing keypair (nostr::Keys). -/
structure Keys where
  seckey : String
  pubkey : String
deriving DecidableEq

/-- Deterministic id of a signed event: stands for the sha256 hash of the
serialized (kind, pubkey, created_at, tags, content). -/
def eventIdCalc (kind : Nat) (pubkey : String) (created_at : Nat)
    (tags : List (List String)) (content : String) : String :=
  "sha256(" ++ toString kind ++ ";" ++ pubkey ++ ";" ++ toString created_at ++ ";"
    ++ String.intercalate "|" (tags.map (String.intercalate ",")) ++ ";" ++ content ++ ")"

/-- EventBuilder::new(kind, content).tags(tags).sign_with_keys(keys). -/
def signEvent (keys : Keys) (kind : Nat) (content : String)
    (tags : List (List String)) (created_at : Nat) : Event :=
  { id := eventIdCalc kind keys.pubkey created_at tags content
    kind := kind
    pubkey := keys.pubkey
    created_at := created_at
    tags := tags
    content := content }

/-! The pull-request aggregator, from gitsmith-core/src/pull_request.rs. -/

/-- PullRequestStatus from pull_request.rs. -/
inductive PullRequestStatus where
  | Open
  | Updated
deriving DecidableEq

/-- PullRequest record from pull_request.rs. -/
structure PullRequest where
  id : String
  title : String
  description : String
  author : String
  created_at : Nat
  updated_at : Option Nat
  patches_count : Nat
  root_commit : Option String
  status : PullRequestStatus
deriving DecidableEq

/-- Predicate of the patches_count filter in event_to_pull_request:
tag.len() > 1, tag.first is the literal e, tag.get(2) is the literal patch. -/
def isPatchRefTag (t : List String) : Bool :=
  decide (t.length > 1) && (t[0]? == some "e") && (t[2]? == some "patch")

/-- Predicate of find_reply_to: tag.len() > 1, tag.first is the literal e,
tag.get(3) is the literal reply. -/
def isReplyRefTag (t : List String) : Bool :=
  decide (t.length > 1) && (t[0]? == some "e") && (t[3]? == some "reply")

/-- get_tag_value from pull_request.rs. -/
def getTagValue (e : Event) (tagName : String) : Option String :=
  (e.tags.find? (fun t => decide (t.length > 1) && (t[0]? == some tagName))).bind
    (fun t => t[1]?)

/-- event_to_pull_request from pull_request.rs (it never fails). -/
def event_to_pull_request (e : Event) : PullRequest :=
  { id := e.id
    title := (getTagValue e "subject").getD "Untitled PR"
    description := e.content
    author := e.pubkey
    created_at := e.created_at
    updated_at := none
    patches_count := (e.tags.filter isPatchRefTag).length
    root_commit := getTagValue e "c"
    status := if e.kind = KIND_PULL_REQUEST_UPDATE then .Updated else .Open }

/-- find_reply_to from pull_request.rs. -/
def find_reply_to (e : Event) : Option String :=
  (e.tags.find? isReplyRefTag).bind (fun t => t[1]?)

/-- The HashMap of the fold, as an insertion-ordered association list. -/
abbrev PRMap := List (String × PullRequest)

/-- HashMap::get. -/
def lookupPR (m : PRMap) (k : String) : Option PullRequest :=
  match m with
  | [] => none
  | (k0, v0) :: rest => if k0 = k then some v0 else lookupPR rest k

/-- HashMap::insert: replaces the value in place, else appends. -/
def insertPR (m : PRMap) (k : String) (v : PullRequest) : PRMap :=
  match m with
  | [] => [(k, v)]
  | (k0, v0) :: rest => if k0 = k then (k, v) :: rest else (k0, v0) :: insertPR rest k v

/-- The body of the update branch: overwrite description, updated_at and
status when the update is strictly newer than the record's created_at. -/
def applyUpdate (e : Event) (existing : PullRequest) : PullRequest :=
  if existing.created_at < e.created_at then
    { existing with
        updated_at := some e.created_at
        description := e.content
        status := .Updated }
  else existing

/-- HashMap::get_mut followed by the in-place update. -/
def updatePR (m : PRMap) (k : String) (e : Event) : PRMap :=
  match m with
  | [] => []
  | (k0, v0) :: rest =>
      if k0 = k then (k0, applyUpdate e v0) :: rest else (k0, v0) :: updatePR rest k e

/-- One iteration of the event loop of list_pull_requests (lines 89-111). -/
def prStep (m : PRMap) (e : Event) : PRMap :=
  if e.kind = KIND_PULL_REQUEST_UPDATE then
    match find_reply_to e with
    | some originalId => updatePR m originalId e
    | none => m
  else
    insertPR m e.id (event_to_pull_request e)

/-- Stable insertion (descending by created_at), modelling
sort_by_key(Reverse(created_at)) which is a stable sort. -/
def insertDesc (pr : PullRequest) : List PullRequest → List PullRequest
  | [] => [pr]
  | q :: rest =>
      if q.created_at ≤ pr.created_at then pr :: q :: rest else q :: insertDesc pr rest

/-- Stable sort by created_at descending. -/
def sortByCreatedDesc (l : List PullRequest) : List PullRequest :=
  l.foldr insertDesc []

/-- The pure fold of list_pull_requests (lines 87-117) on the batch of
received events: build the map, take its values, sort newest first. -/
def list_pull_requests (events : List Event) : List PullRequest :=
  sortByCreatedDesc ((events.foldl prStep []).map Prod.snd)

/-! The patch assembler, from gitsmith-core/src/patches.rs. -/

/-- The alt tag of patch i of total. -/
def altTag (current total : Nat) : List String :=
  ["alt", "git patch: " ++ toString current ++ "/" ++ toString total]

/-- The patch-event loop of create_pull_request_event (lines 170-191):
each event after the first carries an e tag with the previous event id. -/
def buildPatchEvents (keys : Keys) (now total : Nat) :
    List String → Nat → Option String → List Event
  | [], _, _ => []
  | p :: rest, i, prev =>
      let tags := [altTag (i + 1) total] ++
        (match prev with
         | none => []
         | some pid => [["e", pid]])
      let ev := signEvent keys KIND_PATCH p tags now
      ev :: buildPatchEvents keys now total rest (i + 1) (some ev.id)

/-- create_pull_request_event from patches.rs (lines 157-229).  The wall
clock read at signing time is passed in as `now`. -/
def create_pull_request_event (keys : Keys) (repo_coordinate title description : String)
    (patches : List String) (root_commit : String) (reply_to : Option String)
    (now : Nat) : List Event :=
  let patchEvents := buildPatchEvents keys now patches.length patches 0 none
  let kind := match reply_to with
    | some _ => KIND_PULL_REQUEST_UPDATE
    | none => KIND_PULL_REQUEST
  let prTags := [["a", repo_coordinate], ["subject", title], ["c", root_commit]] ++
    (match patchEvents.head? with
     | some e0 => [["e", e0.id]]
     | none => []) ++
    (match reply_to with
     | some replyId => [["e", replyId]]
     | none => [])
  patchEvents ++ [signEvent keys kind description prTags now]

/-! Repository state extraction, from gitsmith-core/src/repo.rs. -/

/-- A commit reachable from HEAD: its oid and commit time. -/
structure Commit where
  id : String
  time : Int
deriving DecidableEq

/-- Stable insertion by commit time descending. -/
def insertTimeDesc (c : Commit) : List Commit → List Commit
  | [] => [c]
  | d :: rest => if d.time ≤ c.time then c :: d :: rest else d :: insertTimeDesc c rest

/-- Revwalk with Sort::TIME: commits by time, newest first. -/
def sortByTimeDesc (l : List Commit) : List Commit :=
  l.foldr insertTimeDesc []

/-- Revwalk of get_root_commit: push_head, Sort::TIME | Sort::REVERSE,
so the walk yields the reachable commits oldest first. -/
def revwalkTimeReverse (reachable : List Commit) : List Commit :=
  (sortByTimeDesc reachable).reverse

/-- get_root_commit from repo.rs (lines 110-125): the loop keeps the last
oid the walk yields and bails when there is none. -/
def get_root_commit (reachable : List Commit) : Except String String :=
  let walked := (revwalkTimeReverse reachable).foldl (fun _ oid => some oid) none
  match walked with
  | some oid => .ok oid.id
  | none => .error "No commits found in repository"

/-- Modelled from the spec: the chronologically-first commit reachable from
HEAD, which the spec names as the root_commit that detect returns. -/
def chronologicallyFirst (reachable : List Commit) : Option Commit :=
  reachable.foldl
    (fun acc c =>
      match acc with
      | none => some c
      | some b => if c.time < b.time then some c else some b)
    none

/-! The credential vault, from gitsmith-core/src/account.rs. -/

/-- StoredAccount from account.rs. -/
structure StoredAccount where
  npub : String
  encrypted_nsec : List Nat
  nonce : List Nat
deriving DecidableEq

/-- AccountStorage from account.rs. -/
structure AccountStorage where
  accounts : List StoredAccount
  active_npub : Option String
deriving DecidableEq

/-- logout from account.rs (lines 126-139): a returned value is the storage
written back to the vault file; an error means the function bailed before
any save, leaving the file untouched. -/
def logout (s : AccountStorage) : Except String AccountStorage :=
  match s.active_npub with
  | none => .error "No active account to logout"
  | some _ => .ok { accounts := s.accounts, active_npub := none }

/-! Publishing, from gitsmith-core/src/repo.rs and
gitsmith/src/commands/send.rs. -/

/-- The per-relay outcome the transport returns from one send_event call. -/
structure SendOutput where
  success : List String
  failed : List (String × String)
deriving DecidableEq

/-- PublishResult from types.rs. -/
structure PublishResult where
  event_id : String
  nostr_url : String
  successes : List String
  failures : List (String × String)
deriving DecidableEq

/-- The result assembly of announce_repository (repo.rs lines 42-68): the
per-relay outcome of send_event is discarded and the result reports every
configured relay as a success with an empty failure list. -/
def announce_repository_result (relays : List String) (identifier npub eventId : String)
    (outcome : SendOutput) : PublishResult :=
  let _ := outcome
  let firstRelay := match relays.head? with
    | some r => "/" ++ ((r.replace "wss://" "").replace "ws://" "")
    | none => ""
  { event_id := eventId
    nostr_url := "nostr://" ++ npub ++ firstRelay ++ "/" ++ identifier
    successes := relays
    failures := [] }

/-- HashSet::insert on a list model: add the element if absent. -/
def insertSetStr (s : List String) (r : String) : List String :=
  if r ∈ s then s else s ++ [r]

/-- HashMap::insert on a list model: replace in place, else append. -/
def insertMapStr (f : List (String × String)) (k v : String) : List (String × String) :=
  match f with
  | [] => [(k, v)]
  | (k0, v0) :: rest => if k0 = k then (k, v) :: rest else (k0, v0) :: insertMapStr rest k v

/-- One iteration of the accumulation loop of handle_send_command (send.rs
lines 151-179): the successes of one send_event output join the success
set, its failures join the failure map. -/
def sendAccumStep (acc : List String × List (String × String)) (o : SendOutput) :
    List String × List (String × String) :=
  (o.success.foldl insertSetStr acc.1,
   o.failed.foldl (fun f p => insertMapStr f p.1 p.2) acc.2)

/-- The accumulation loop of handle_send_command (send.rs lines 148-179):
per-event successes accumulate into a set, failures into a map. -/
def accumulateOutputs (outputs : List SendOutput) :
    List String × List (String × String) :=
  outputs.foldl sendAccumStep ([], [])

/-- The early no-patch check of handle_send_command (send.rs lines 63-67):
with no patches the command returns success and never builds or publishes
events; otherwise it publishes the assembled events. -/
def handle_send_publish_plan (patches : List String)
    (mk : List String → List Event) : Option (List Event) :=
  if patches.isEmpty then none else some (mk patches)

/-! Proof-layer abstractions for the fold: the effect of one fold step on a
single map key, used to prove idempotency under duplicate delivery. -/

/-- The effect of one fold step on the entry at key k. -/
def stepK (k : String) (o : Option PullRequest) (e : Event) : Option PullRequest :=
  if e.kind = KIND_PULL_REQUEST_UPDATE then
    match find_reply_to e with
    | some orig => if orig = k then o.map (applyUpdate e) else o
    | none => o
  else if e.id = k then some (event_to_pull_request e) else o

/-- An event that inserts at key k (a creation whose id is k). -/
def IsCre (k : String) (e : Event) : Prop :=
  ¬ e.kind = KIND_PULL_REQUEST_UPDATE ∧ e.id = k

/-- An event that updates key k (an update whose reply target is k). -/
def IsUpd (k : String) (e : Event) : Prop :=
  e.kind = KIND_PULL_REQUEST_UPDATE ∧ find_reply_to e = some k

/-- No event of the list inserts at key k. -/
def NoCre (k : String) (T : List Event) : Prop := ∀ e ∈ T, ¬ IsCre k e

/-- Some event of the list is an update for key k applicable to a record
whose created_at is a. -/
def HasApp (k : String) (a : Nat) (T : List Event) : Prop :=
  ∃ e ∈ T, IsUpd k e ∧ a < e.created_at

/-- The per-key effect of one update-kind event. -/
def applyUpdK (k : String) (r : PullRequest) (e : Event) : PullRequest :=
  if e.kind = KIND_PULL_REQUEST_UPDATE ∧ find_reply_to e = some k then applyUpdate e r
  else r

/-- The per-key effect of a creation-free event list on a present record. -/
def appU (k : String) (X : PullRequest) (T : List Event) : PullRequest :=
  T.foldl (applyUpdK k) X

/-- Records that agree on every field an update never touches. -/
def sameCore (r1 r2 : PullRequest) : Prop :=
  r1.id = r2.id ∧ r1.title = r2.title ∧ r1.author = r2.author ∧
  r1.created_at = r2.created_at ∧ r1.patches_count = r2.patches_count ∧
  r1.root_commit = r2.root_commit

theorem sameCore_refl (r : PullRequest) : sameCore r r :=
  ⟨rfl, rfl, rfl, rfl, rfl, rfl⟩

theorem sameCore_trans {r1 r2 r3 : PullRequest} (h1 : sameCore r1 r2)
    (h2 : sameCore r2 r3) : sameCore r1 r3 := by
  obtain ⟨a1, b1, c1, d1, e1, f1⟩ := h1
  obtain ⟨a2, b2, c2, d2, e2, f2⟩ := h2
  exact ⟨a1.trans a2, b1.trans b2, c1.trans c2, d1.trans d2, e1.trans e2, f1.trans f2⟩

theorem applyUpdate_created_at (e : Event) (r : PullRequest) :
    (applyUpdate e r).created_at = r.created_at := by
  unfold applyUpdate
  split <;> rfl

theorem applyUpdate_sameCore (e : Event) (r : PullRequest) :
    sameCore r (applyUpdate e r) := by
  unfold applyUpdate
  split <;> exact ⟨rfl, rfl, rfl, rfl, rfl, rfl⟩

theorem applyUpdate_idem (e : Event) (r : PullRequest) :
    applyUpdate e (applyUpdate e r) = applyUpdate e r := by
  unfold applyUpdate
  by_cases h : r.created_at < e.created_at <;> simp [h]

theorem applyUpdate_congr {r1 r2 : PullRequest} (e : Event) (hc : sameCore r1 r2)
    (h : r1.created_at < e.created_at) : applyUpdate e r1 = applyUpdate e r2 := by
  obtain ⟨h1, h2, h3, h4, h5, h6⟩ := hc
  cases r1
  cases r2
  simp only at h1 h2 h3 h4 h5 h6
  subst h1 h2 h3 h4 h5 h6
  simp only [applyUpdate] at *
  simp [h]

theorem applyUpdK_created_at (k : String) (r : PullRequest) (e : Event) :
    (applyUpdK k r e).created_at = r.created_at := by
  unfold applyUpdK
  split
  · exact applyUpdate_created_at e r
  · rfl

theorem applyUpdK_sameCore (k : String) (r : PullRequest) (e : Event) :
    sameCore r (applyUpdK k r e) := by
  unfold applyUpdK
  split
  · exact applyUpdate_sameCore e r
  · exact sameCore_refl r

theorem appU_created_at (k : String) (T : List Event) :
    ∀ X : PullRequest, (appU k X T).created_at = X.created_at := by
  induction T with
  | nil => intro X; rfl
  | cons e T ih =>
      intro X
      show (appU k (applyUpdK k X e) T).created_at = X.created_at
      rw [ih, applyUpdK_created_at]

theorem appU_sameCore (k : String) (T : List Event) :
    ∀ X : PullRequest, sameCore X (appU k X T) := by
  induction T with
  | nil => intro X; exact sameCore_refl X
  | cons e T ih =>
      intro X
      exact sameCore_trans (applyUpdK_sameCore k X e) (ih (applyUpdK k X e))

theorem appU_noApp (k : String) (T : List Event) :
    ∀ X : PullRequest, ¬ HasApp k X.created_at T → appU k X T = X := by
  induction T with
  | nil => intro X _; rfl
  | cons e T ih =>
      intro X h
      have hstep : applyUpdK k X e = X := by
        unfold applyUpdK
        split
        · next hupd =>
            unfold applyUpdate
            have hnot : ¬ X.created_at < e.created_at := by
              intro hlt
              exact h ⟨e, List.mem_cons_self e T, hupd, hlt⟩
            simp [hnot]
        · rfl
      show appU k (applyUpdK k X e) T = X
      rw [hstep]
      exact ih X (fun ⟨e2, he2, h2⟩ => h ⟨e2, List.mem_cons_of_mem e he2, h2⟩)

theorem appU_congr (k : String) (T : List Event) :
    ∀ X1 X2 : PullRequest, sameCore X1 X2 → HasApp k X1.created_at T →
      appU k X1 T = appU k X2 T := by
  induction T with
  | nil => intro X1 X2 _ h; exact absurd h (by simp [HasApp])
  | cons e T ih =>
      intro X1 X2 hc happ
      have hca : X1.created_at = X2.created_at := hc.2.2.2.1
      by_cases hupd : e.kind = KIND_PULL_REQUEST_UPDATE ∧ find_reply_to e = some k
      · by_cases hlt : X1.created_at < e.created_at
        · have h1 : applyUpdK k X1 e = applyUpdate e X1 := by unfold applyUpdK; simp [hupd]
          have h2 : applyUpdK k X2 e = applyUpdate e X2 := by unfold applyUpdK; simp [hupd]
          show appU k (applyUpdK k X1 e) T = appU k (applyUpdK k X2 e) T
          rw [h1, h2, applyUpdate_congr e hc hlt]
        · have h1 : applyUpdK k X1 e = X1 := by
            unfold applyUpdK applyUpdate
            simp [hupd, hlt]
          have h2 : applyUpdK k X2 e = X2 := by
            unfold applyUpdK applyUpdate
            simp [hupd, hca ▸ hlt]
          have happT : HasApp k X1.created_at T := by
            obtain ⟨e2, he2, hu2, hl2⟩ := happ
            rcases List.mem_cons.mp he2 with rfl | he2
            · exact absurd hl2 hlt
            · exact ⟨e2, he2, hu2, hl2⟩
          show appU k (applyUpdK k X1 e) T = appU k (applyUpdK k X2 e) T
          rw [h1, h2]
          exact ih X1 X2 hc happT
      · have h1 : applyUpdK k X1 e = X1 := by unfold applyUpdK; simp [hupd]
        have h2 : applyUpdK k X2 e = X2 := by unfold applyUpdK; simp [hupd]
        have happT : HasApp k X1.created_at T := by
          obtain ⟨e2, he2, hu2, hl2⟩ := happ
          rcases List.mem_cons.mp he2 with rfl | he2
          · exact absurd hu2 hupd
          · exact ⟨e2, he2, hu2, hl2⟩
        show appU k (applyUpdK k X1 e) T = appU k (applyUpdK k X2 e) T
        rw [h1, h2]
        exact ih X1 X2 hc happT

theorem stepK_cre {k : String} {e : Event} (h : IsCre k e) (o : Option PullRequest) :
    stepK k o e = some (event_to_pull_request e) := by
  unfold stepK
  simp [h.1, h.2]

theorem stepK_some_of_not_cre {k : String} {e : Event} (h : ¬ IsCre k e)
    (X : PullRequest) : stepK k (some X) e = some (applyUpdK k X e) := by
  unfold stepK applyUpdK
  by_cases hk : e.kind = KIND_PULL_REQUEST_UPDATE
  · simp only [hk, if_true]
    cases hr : find_reply_to e with
    | none => simp [hr]
    | some orig =>
        by_cases ho : orig = k
        · subst ho
          simp [hr, hk]
        · simp [hr, ho, hk]
  · have hid : ¬ e.id = k := fun hid => h ⟨hk, hid⟩
    simp [hk, hid]

theorem stepK_none_of_not_cre {k : String} {e : Event} (h : ¬ IsCre k e) :
    stepK k none e = none := by
  unfold stepK
  by_cases hk : e.kind = KIND_PULL_REQUEST_UPDATE
  · simp only [hk, if_true]
    cases hr : find_reply_to e with
    | none => rfl
    | some orig =>
        by_cases ho : orig = k <;> simp [ho]
  · have hid : ¬ e.id = k := fun hid => h ⟨hk, hid⟩
    simp [hk, hid]

theorem stepK_neutral {k : String} {e : Event} (hcre : ¬ IsCre k e)
    (hupd : ¬ IsUpd k e) (o : Option PullRequest) : stepK k o e = o := by
  unfold stepK
  by_cases hk : e.kind = KIND_PULL_REQUEST_UPDATE
  · simp only [hk, if_true]
    cases hr : find_reply_to e with
    | none => rfl
    | some orig =>
        have ho : ¬ orig = k := fun ho => hupd ⟨hk, ho ▸ hr⟩
        simp [ho]
  · have hid : ¬ e.id = k := fun hid => hcre ⟨hk, hid⟩
    simp [hk, hid]

theorem foldl_stepK_none {k : String} {T : List Event} (h : NoCre k T) :
    T.foldl (stepK k) none = none := by
  induction T with
  | nil => rfl
  | cons e T ih =>
      have he : ¬ IsCre k e := h e (List.mem_cons_self e T)
      show T.foldl (stepK k) (stepK k none e) = none
      rw [stepK_none_of_not_cre he]
      exact ih (fun e2 he2 => h e2 (List.mem_cons_of_mem e he2))

theorem foldl_stepK_noCre {k : String} {T : List Event} (h : NoCre k T) :
    ∀ X : PullRequest, T.foldl (stepK k) (some X) = some (appU k X T) := by
  induction T with
  | nil => intro X; rfl
  | cons e T ih =>
      intro X
      have he : ¬ IsCre k e := h e (List.mem_cons_self e T)
      show T.foldl (stepK k) (stepK k (some X) e) = some (appU k (applyUpdK k X e) T)
      rw [stepK_some_of_not_cre he]
      exact ih (fun e2 he2 => h e2 (List.mem_cons_of_mem e he2)) (applyUpdK k X e)

theorem foldl_stepK_creIndep {k : String} {T : List Event}
    (h : ∃ e ∈ T, IsCre k e) (x y : Option PullRequest) :
    T.foldl (stepK k) x = T.foldl (stepK k) y := by
  induction T generalizing x y with
  | nil => exact absurd h (by simp)
  | cons e T ih =>
      obtain ⟨e2, he2, hcre⟩ := h
      rcases List.mem_cons.mp he2 with rfl | he2
      · show T.foldl (stepK k) (stepK k x e2) = T.foldl (stepK k) (stepK k y e2)
        rw [stepK_cre hcre x, stepK_cre hcre y]
      · exact ih ⟨e2, he2, hcre⟩ _ _

theorem foldl_stepK_replay (k : String) :
    ∀ (T : List Event) (o : Option PullRequest),
      T.foldl (stepK k) (T.foldl (stepK k) o) = T.foldl (stepK k) o := by
  intro T
  induction T with
  | nil => intro o; rfl
  | cons e T ih =>
      intro o
      simp only [List.foldl_cons]
      have hM : T.foldl (stepK k) (stepK k o e) = T.foldl (stepK k) (stepK k o e) := rfl
      by_cases hcre : IsCre k e
      · rw [stepK_cre hcre, stepK_cre hcre o]
      · by_cases hupd : IsUpd k e
        · cases hMv : T.foldl (stepK k) (stepK k o e) with
          | none =>
              rw [stepK_none_of_not_cre hcre]
              have hrec := ih (stepK k o e)
              rw [hMv] at hrec
              exact hrec
          | some R =>
              rw [stepK_some_of_not_cre hcre]
              by_cases hTcre : ∃ e2 ∈ T, IsCre k e2
              · have h1 : T.foldl (stepK k) (some (applyUpdK k R e)) =
                    T.foldl (stepK k) (some R) := foldl_stepK_creIndep hTcre _ _
                have h2 : T.foldl (stepK k) (some R) =
                    T.foldl (stepK k) (T.foldl (stepK k) (stepK k o e)) := by rw [hMv]
                rw [h1, h2, ih (stepK k o e), hMv]
              · have hNoCre : NoCre k T := fun e2 he2 hc => hTcre ⟨e2, he2, hc⟩
                cases ho : o with
                | none =>
                    exfalso
                    rw [ho, stepK_none_of_not_cre hcre, foldl_stepK_none hNoCre] at hMv
                    exact Option.noConfusion hMv
                | some Q =>
                    have hQ : stepK k (some Q) e = some (applyUpdK k Q e) :=
                      stepK_some_of_not_cre hcre Q
                    have hMc : T.foldl (stepK k) (stepK k o e) =
                        some (appU k (applyUpdK k Q e) T) := by
                      rw [ho, hQ]
                      exact foldl_stepK_noCre hNoCre (applyUpdK k Q e)
                    have hR : R = appU k (applyUpdK k Q e) T := by
                      rw [hMv] at hMc
                      exact Option.some.inj hMc
                    set Q1 := applyUpdK k Q e with hQ1
                    have hRca : R.created_at = Q1.created_at := by
                      rw [hR, appU_created_at]
                    rw [foldl_stepK_noCre hNoCre (applyUpdK k R e)]
                    by_cases happ : HasApp k Q1.created_at T
                    · have hcore : sameCore (applyUpdK k R e) Q1 := by
                        have c1 : sameCore Q1 R := hR ▸ appU_sameCore k T Q1
                        have c2 : sameCore R (applyUpdK k R e) := applyUpdK_sameCore k R e
                        have c3 : sameCore Q1 (applyUpdK k R e) := sameCore_trans c1 c2
                        exact ⟨c3.1.symm, c3.2.1.symm, c3.2.2.1.symm, c3.2.2.2.1.symm,
                          c3.2.2.2.2.1.symm, c3.2.2.2.2.2.symm⟩
                      have hca2 : (applyUpdK k R e).created_at = Q1.created_at := by
                        rw [applyUpdK_created_at, hRca]
                      have := appU_congr k T (applyUpdK k R e) Q1 hcore (hca2 ▸ happ)
                      rw [this, ← hR]
                    · have hR1 : appU k Q1 T = Q1 := appU_noApp k T Q1 happ
                      have hRQ : R = Q1 := by rw [hR, hR1]
                      have hupdk : applyUpdK k R e = applyUpdate e R := by
                        unfold applyUpdK
                        simp [hupd.1, hupd.2]
                      have hupdkQ : Q1 = applyUpdate e Q := by
                        rw [hQ1]
                        unfold applyUpdK
                        simp [hupd.1, hupd.2]
                      have hfix : applyUpdK k R e = R := by
                        rw [hupdk, hRQ, hupdkQ, applyUpdate_idem]
                      rw [hfix]
                      have happR : ¬ HasApp k R.created_at T := by
                        rw [hRca]
                        exact happ
                      rw [appU_noApp k T R happR]
        · rw [stepK_neutral hcre hupd]
          exact ih (stepK k o e)

/-! Map-level lemmas lifting the per-key analysis to the whole fold. -/

/-- The key list of the map, in first-insertion order. -/
def keysOf (m : PRMap) : List String := m.map Prod.fst

theorem lookupPR_insert_self (m : PRMap) (k : String) (v : PullRequest) :
    lookupPR (insertPR m k v) k = some v := by
  induction m with
  | nil => simp [insertPR, lookupPR]
  | cons p rest ih =>
      obtain ⟨k0, v0⟩ := p
      by_cases h : k0 = k <;> simp [insertPR, lookupPR, h, ih]

theorem lookupPR_insert_ne (m : PRMap) {k k2 : String} (v : PullRequest)
    (h : k2 ≠ k) : lookupPR (insertPR m k v) k2 = lookupPR m k2 := by
  have hne : ¬ k = k2 := fun hk => h hk.symm
  induction m with
  | nil => simp [insertPR, lookupPR, hne]
  | cons p rest ih =>
      obtain ⟨k0, v0⟩ := p
      by_cases h0 : k0 = k
      · subst h0
        simp [insertPR, lookupPR, hne]
      · simp [insertPR, lookupPR, h0, ih]

theorem lookupPR_update_self (m : PRMap) (k : String) (e : Event) :
    lookupPR (updatePR m k e) k = (lookupPR m k).map (applyUpdate e) := by
  induction m with
  | nil => simp [updatePR, lookupPR]
  | cons p rest ih =>
      obtain ⟨k0, v0⟩ := p
      by_cases h : k0 = k <;> simp [updatePR, lookupPR, h, ih]

theorem lookupPR_update_ne (m : PRMap) {k k2 : String} (e : Event)
    (h : k2 ≠ k) : lookupPR (updatePR m k e) k2 = lookupPR m k2 := by
  have hne : ¬ k = k2 := fun hk => h hk.symm
  induction m with
  | nil => simp [updatePR, lookupPR]
  | cons p rest ih =>
      obtain ⟨k0, v0⟩ := p
      by_cases h0 : k0 = k
      · subst h0
        simp [updatePR, lookupPR, hne]
      · simp [updatePR, lookupPR, h0, ih]

theorem lookupPR_eq_none_of_not_mem (m : PRMap) (k : String)
    (h : k ∉ keysOf m) : lookupPR m k = none := by
  induction m with
  | nil => rfl
  | cons p rest ih =>
      obtain ⟨k0, v0⟩ := p
      simp only [keysOf, List.map_cons, List.mem_cons] at h
      push_neg at h
      have h0 : ¬ k0 = k := fun h0 => h.1 h0.symm
      simp [lookupPR, h0, ih (by simpa [keysOf] using h.2)]

theorem keysOf_update (m : PRMap) (k : String) (e : Event) :
    keysOf (updatePR m k e) = keysOf m := by
  induction m with
  | nil => rfl
  | cons p rest ih =>
      obtain ⟨k0, v0⟩ := p
      by_cases h : k0 = k
      · simp [updatePR, keysOf, h]
      · simp only [updatePR, if_neg h, keysOf, List.map_cons]
        exact congrArg (fun l => k0 :: l) ih

theorem keysOf_insert_mem (m : PRMap) (k : String) (v : PullRequest)
    (h : k ∈ keysOf m) : keysOf (insertPR m k v) = keysOf m := by
  induction m with
  | nil => simp [keysOf] at h
  | cons p rest ih =>
      obtain ⟨k0, v0⟩ := p
      by_cases h0 : k0 = k
      · simp [insertPR, keysOf, h0]
      · have hk : k ∈ keysOf rest := by
          simp only [keysOf, List.map_cons, List.mem_cons] at h
          rcases h with h | h
          · exact absurd h.symm h0
          · simpa [keysOf] using h
        simp [insertPR, keysOf, h0]
        simpa [keysOf] using ih hk

theorem keysOf_insert_not_mem (m : PRMap) (k : String) (v : PullRequest)
    (h : k ∉ keysOf m) : keysOf (insertPR m k v) = keysOf m ++ [k] := by
  induction m with
  | nil => simp [insertPR, keysOf]
  | cons p rest ih =>
      obtain ⟨k0, v0⟩ := p
      simp only [keysOf, List.map_cons, List.mem_cons] at h
      push_neg at h
      have h0 : ¬ k0 = k := fun h0 => h.1 h0.symm
      simp [insertPR, keysOf, h0]
      simpa [keysOf] using ih (by simpa [keysOf] using h.2)

theorem mem_keysOf_insert (m : PRMap) (k : String) (v : PullRequest) :
    k ∈ keysOf (insertPR m k v) := by
  by_cases h : k ∈ keysOf m
  · rw [keysOf_insert_mem m k v h]
    exact h
  · rw [keysOf_insert_not_mem m k v h]
    simp

theorem keysOf_prStep_sub (m : PRMap) (e : Event) :
    keysOf m ⊆ keysOf (prStep m e) := by
  unfold prStep
  by_cases hk : e.kind = KIND_PULL_REQUEST_UPDATE
  · simp only [hk, if_true]
    cases find_reply_to e with
    | none => exact fun x hx => hx
    | some orig =>
        rw [keysOf_update]
        exact fun x hx => hx
  · simp only [hk, if_false]
    by_cases h : e.id ∈ keysOf m
    · rw [keysOf_insert_mem m _ _ h]
      exact fun x hx => hx
    · rw [keysOf_insert_not_mem m _ _ h]
      exact fun x hx => List.mem_append_left _ hx

theorem lookupPR_prStep (m : PRMap) (e : Event) (k : String) :
    lookupPR (prStep m e) k = stepK k (lookupPR m k) e := by
  unfold prStep stepK
  by_cases hk : e.kind = KIND_PULL_REQUEST_UPDATE
  · simp only [hk, if_true]
    cases find_reply_to e with
    | none => rfl
    | some orig =>
        show lookupPR (updatePR m orig e) k =
          if orig = k then (lookupPR m k).map (applyUpdate e) else lookupPR m k
        by_cases ho : orig = k
        · subst ho
          rw [lookupPR_update_self, if_pos rfl]
        · rw [lookupPR_update_ne m e (fun h => ho h.symm), if_neg ho]
  · simp only [hk, if_false]
    show lookupPR (insertPR m e.id (event_to_pull_request e)) k =
      if e.id = k then some (event_to_pull_request e) else lookupPR m k
    by_cases hid : e.id = k
    · subst hid
      rw [lookupPR_insert_self, if_pos rfl]
    · rw [lookupPR_insert_ne m _ (fun h => hid h.symm), if_neg hid]

theorem lookupPR_foldl (S : List Event) :
    ∀ (m : PRMap) (k : String),
      lookupPR (S.foldl prStep m) k = S.foldl (stepK k) (lookupPR m k) := by
  induction S with
  | nil => intro m k; rfl
  | cons e T ih =>
      intro m k
      simp only [List.foldl_cons]
      rw [ih (prStep m e) k, lookupPR_prStep]

theorem keysOf_nodup_prStep (m : PRMap) (e : Event)
    (h : (keysOf m).Nodup) : (keysOf (prStep m e)).Nodup := by
  unfold prStep
  by_cases hk : e.kind = KIND_PULL_REQUEST_UPDATE
  · simp only [hk, if_true]
    cases find_reply_to e with
    | none => exact h
    | some orig => rw [keysOf_update]; exact h
  · simp only [hk, if_false]
    by_cases hm : e.id ∈ keysOf m
    · rw [keysOf_insert_mem m _ _ hm]
      exact h
    · rw [keysOf_insert_not_mem m _ _ hm, List.nodup_append]
      exact ⟨h, List.nodup_singleton _,
        fun a ha hae => absurd ((List.mem_singleton.mp hae) ▸ ha) hm⟩

theorem keysOf_nodup_foldl (S : List Event) :
    ∀ m : PRMap, (keysOf m).Nodup → (keysOf (S.foldl prStep m)).Nodup := by
  induction S with
  | nil => intro m h; exact h
  | cons e T ih =>
      intro m h
      exact ih (prStep m e) (keysOf_nodup_prStep m e h)

theorem mem_keysOf_foldl_mono (S : List Event) :
    ∀ (m : PRMap) (k : String), k ∈ keysOf m → k ∈ keysOf (S.foldl prStep m) := by
  induction S with
  | nil => intro m k h; exact h
  | cons e T ih =>
      intro m k h
      exact ih (prStep m e) k (keysOf_prStep_sub m e h)

theorem cre_id_mem_keysOf_foldl (S : List Event) :
    ∀ (m : PRMap) (e : Event), e ∈ S → ¬ e.kind = KIND_PULL_REQUEST_UPDATE →
      e.id ∈ keysOf (S.foldl prStep m) := by
  induction S with
  | nil => intro m e he; simp at he
  | cons f T ih =>
      intro m e he hk
      rcases List.mem_cons.mp he with rfl | he
      · apply mem_keysOf_foldl_mono T (prStep m e) e.id
        unfold prStep
        simp only [hk, if_false]
        exact mem_keysOf_insert m e.id _
      · exact ih (prStep m f) e he hk

theorem keysOf_foldl_stable (S : List Event) :
    ∀ m : PRMap, (∀ e ∈ S, ¬ e.kind = KIND_PULL_REQUEST_UPDATE → e.id ∈ keysOf m) →
      keysOf (S.foldl prStep m) = keysOf m := by
  induction S with
  | nil => intro m _; rfl
  | cons e T ih =>
      intro m h
      have hstep : keysOf (prStep m e) = keysOf m := by
        unfold prStep
        by_cases hk : e.kind = KIND_PULL_REQUEST_UPDATE
        · simp only [hk, if_true]
          cases find_reply_to e with
          | none => rfl
          | some orig => exact keysOf_update m orig e
        · simp only [hk, if_false]
          exact keysOf_insert_mem m _ _ (h e (List.mem_cons_self e T) hk)
      rw [List.foldl_cons, ih (prStep m e) ?_, hstep]
      intro e2 he2 hk2
      rw [hstep]
      exact h e2 (List.mem_cons_of_mem e he2) hk2

theorem assoc_ext : ∀ (m1 m2 : PRMap), keysOf m1 = keysOf m2 →
    (keysOf m1).Nodup → (∀ k, lookupPR m1 k = lookupPR m2 k) → m1 = m2 := by
  intro m1
  induction m1 with
  | nil =>
      intro m2 hkeys _ _
      cases m2 with
      | nil => rfl
      | cons p t => exact absurd hkeys.symm (by simp [keysOf])
  | cons p t ih =>
      intro m2 hkeys hnodup hlook
      obtain ⟨k, v⟩ := p
      cases m2 with
      | nil => exact absurd hkeys (by simp [keysOf])
      | cons q t2 =>
          obtain ⟨k2, v2⟩ := q
          simp only [keysOf, List.map_cons, List.cons.injEq] at hkeys
          obtain ⟨hk, htkeys⟩ := hkeys
          subst hk
          have hv : v = v2 := by
            have := hlook k
            simpa [lookupPR] using this
          subst hv
          have hnodup2 : k ∉ List.map Prod.fst t ∧ (List.map Prod.fst t).Nodup := by
            rw [keysOf, List.map_cons, List.nodup_cons] at hnodup
            exact hnodup
          have hknotmem : k ∉ keysOf t := hnodup2.1
          have hknotmem2 : k ∉ keysOf t2 := by
            rw [keysOf, ← htkeys]
            exact hnodup2.1
          have htlook : ∀ k3, lookupPR t k3 = lookupPR t2 k3 := by
            intro k3
            by_cases h3 : k3 = k
            · subst h3
              rw [lookupPR_eq_none_of_not_mem t k3 hknotmem,
                lookupPR_eq_none_of_not_mem t2 k3 hknotmem2]
            · have hne : ¬ k = k3 := fun h => h3 h.symm
              have hthis := hlook k3
              simp only [lookupPR] at hthis
              rw [if_neg hne, if_neg hne] at hthis
              exact hthis
          rw [ih t2 htkeys hnodup2.2 htlook]

/-! Theorems. -/

/-! Lemmas about the patch-event loop. -/

theorem buildPatchEvents_length (keys : Keys) (now total : Nat) (ps : List String) :
    ∀ (i : Nat) (prev : Option String),
      (buildPatchEvents keys now total ps i prev).length = ps.length := by
  induction ps with
  | nil => intro i prev; rfl
  | cons p rest ih => intro i prev; simp [buildPatchEvents, ih]

theorem buildPatchEvents_content (keys : Keys) (now total : Nat) (ps : List String) :
    ∀ (i : Nat) (prev : Option String),
      (buildPatchEvents keys now total ps i prev).map Event.content = ps := by
  induction ps with
  | nil => intro i prev; rfl
  | cons p rest ih => intro i prev; simp [buildPatchEvents, signEvent, ih]

theorem buildPatchEvents_kind (keys : Keys) (now total : Nat) (ps : List String) :
    ∀ (i : Nat) (prev : Option String) (e : Event),
      e ∈ buildPatchEvents keys now total ps i prev → e.kind = KIND_PATCH := by
  induction ps with
  | nil => intro i prev e he; simp [buildPatchEvents] at he
  | cons p rest ih =>
      intro i prev e he
      simp only [buildPatchEvents, List.mem_cons] at he
      rcases he with rfl | he
      · rfl
      · exact ih _ _ _ he

theorem buildPatchEvents_head_mem (keys : Keys) (now total : Nat) (ps : List String)
    (i : Nat) (pid : String) :
    ∀ b ∈ (buildPatchEvents keys now total ps i (some pid)).head?, ["e", pid] ∈ b.tags := by
  cases ps with
  | nil => intro b hb; simp [buildPatchEvents] at hb
  | cons p rest =>
      intro b hb
      simp only [buildPatchEvents, List.head?_cons, Option.mem_def, Option.some.injEq] at hb
      subst hb
      simp [signEvent]

theorem buildPatchEvents_chain (keys : Keys) (now total : Nat) (ps : List String) :
    ∀ (i : Nat) (prev : Option String),
      List.Chain' (fun a b => ["e", a.id] ∈ b.tags)
        (buildPatchEvents keys now total ps i prev) := by
  induction ps with
  | nil => intro i prev; simp [buildPatchEvents]
  | cons p rest ih =>
      intro i prev
      simp only [buildPatchEvents]
      exact List.chain'_cons'.mpr
        ⟨buildPatchEvents_head_mem keys now total rest (i + 1) _, ih (i + 1) _⟩

/-- C1: for every keypair, coordinate, title, description, root commit and
non-empty patch list, assemble emits the patch messages first in input order
(one per patch, kind Patch), each one after the first carrying a
chain-reference e tag with the previous patch message id, followed by
exactly one summary message whose kind is PullRequest when reply_to is
absent and PullRequestUpdate when present, whose body is the description,
which carries the subject, a, and c tags and a reference-event tag with the
first patch message id, and an e tag with reply_to when updating. -/
theorem assemble_patch_chain (keys : Keys) (coord T D root : String) (ps : List String)
    (reply : Option String) (now : Nat) (hps : ps ≠ []) :
    ∃ pes summary,
      create_pull_request_event keys coord T D ps root reply now = pes ++ [summary] ∧
      pes.length = ps.length ∧
      pes.map Event.content = ps ∧
      (∀ e ∈ pes, e.kind = KIND_PATCH) ∧
      List.Chain' (fun a b => ["e", a.id] ∈ b.tags) pes ∧
      summary.kind = (match reply with
        | some _ => KIND_PULL_REQUEST_UPDATE
        | none => KIND_PULL_REQUEST) ∧
      summary.content = D ∧
      ["a", coord] ∈ summary.tags ∧
      ["subject", T] ∈ summary.tags ∧
      ["c", root] ∈ summary.tags ∧
      (∃ e0, pes.head? = some e0 ∧ ["e", e0.id] ∈ summary.tags) ∧
      (∀ rid, reply = some rid → ["e", rid] ∈ summary.tags) := by
  obtain ⟨p, rest, rfl⟩ := List.exists_cons_of_ne_nil hps
  refine ⟨buildPatchEvents keys now (p :: rest).length (p :: rest) 0 none, _, rfl,
    buildPatchEvents_length keys now _ _ 0 none,
    buildPatchEvents_content keys now _ _ 0 none,
    buildPatchEvents_kind keys now _ _ 0 none,
    buildPatchEvents_chain keys now _ _ 0 none,
    ?_, rfl, ?_, ?_, ?_, ?_, ?_⟩
  · cases reply <;> rfl
  · simp [signEvent]
  · simp [signEvent]
  · simp [signEvent]
  · refine ⟨signEvent keys KIND_PATCH p [altTag 1 (p :: rest).length] now, rfl, ?_⟩
    simp only [buildPatchEvents, List.head?_cons]
    cases reply <;> simp [signEvent]
  · intro rid hrid
    subst hrid
    simp [signEvent]

/-- C1 witness: the concrete three-patch assemble call of the spec produces
exactly four messages. -/
theorem assemble_patch_chain_witness :
    (create_pull_request_event ⟨"sk", "pk"⟩ "30617:pk:repo" "T" "D"
      ["p0", "p1", "p2"] "root" none 0).length = 4 := by
  obtain ⟨pes, summary, heq, hlen, -⟩ :=
    assemble_patch_chain ⟨"sk", "pk"⟩ "30617:pk:repo" "T" "D" "root"
      ["p0", "p1", "p2"] none 0 (by decide)
  rw [heq]
  simp [hlen]

theorem isPatchRefTag_pair (a b : String) : isPatchRefTag [a, b] = false := by
  have h : (([a, b][2]?) == some "patch") = false := rfl
  simp only [isPatchRefTag, h, Bool.and_false]

theorem isReplyRefTag_pair (a b : String) : isReplyRefTag [a, b] = false := by
  have h : (([a, b][3]?) == some "reply") = false := rfl
  simp only [isReplyRefTag, h, Bool.and_false]

/-- C10: every e tag the assembler attaches to its summary message holds
only the referenced id, with no positional marker strings: the aggregator
parser counts zero patch references on the summary, its reply-target
extraction finds no id, and hence a fold step on an assembler-produced
update message leaves the map unchanged. -/
theorem summary_tags_carry_no_markers (keys : Keys) (coord T D root : String)
    (ps : List String) (reply : Option String) (now : Nat) (hps : ps ≠ []) :
    ∃ pes summary,
      create_pull_request_event keys coord T D ps root reply now = pes ++ [summary] ∧
      (event_to_pull_request summary).patches_count = 0 ∧
      find_reply_to summary = none ∧
      (∀ m : PRMap, reply.isSome → prStep m summary = m) := by
  obtain ⟨p, rest, rfl⟩ := List.exists_cons_of_ne_nil hps
  refine ⟨buildPatchEvents keys now (p :: rest).length (p :: rest) 0 none, _, rfl, ?_, ?_, ?_⟩
  · cases reply <;>
      simp [event_to_pull_request, signEvent, buildPatchEvents, List.filter,
        isPatchRefTag_pair]
  · cases reply <;>
      simp [find_reply_to, signEvent, buildPatchEvents, List.find?, isReplyRefTag_pair]
  · intro m hreply
    obtain ⟨rid, rfl⟩ := Option.isSome_iff_exists.mp hreply
    have hfind : find_reply_to
        (signEvent keys KIND_PULL_REQUEST_UPDATE D
          ([["a", coord], ["subject", T], ["c", root]] ++
            [["e", (signEvent keys KIND_PATCH p [altTag 1 (p :: rest).length] now).id]] ++
            [["e", rid]]) now) = none := by
      simp [find_reply_to, signEvent, List.find?, isReplyRefTag_pair]
    simp [prStep, signEvent, buildPatchEvents, hfind, find_reply_to, List.find?,
      isReplyRefTag_pair]

/-- C10 witness: the concrete update summary (reply_to set) parses to zero
patches, yields no reply target, and a fold step on it leaves a concrete
map unchanged. -/
theorem summary_tags_carry_no_markers_witness :
    ∃ pes summary,
      create_pull_request_event ⟨"sk", "pk"⟩ "30617:pk:repo" "T" "D"
        ["p0"] "root" (some "orig") 0 = pes ++ [summary] ∧
      (event_to_pull_request summary).patches_count = 0 ∧
      find_reply_to summary = none ∧
      (∀ m : PRMap, (some "orig").isSome → prStep m summary = m) :=
  summary_tags_carry_no_markers ⟨"sk", "pk"⟩ "30617:pk:repo" "T" "D" "root"
    ["p0"] (some "orig") 0 (by decide)

/-- C2 counterexample: a batch holding an update followed by the creation it
reply-targets (update timestamp 10 > creation timestamp 5): the fold drops
the update and yields the record with status Open, not Updated, so the
processing order of the batch does matter. -/
theorem fold_drops_update_arriving_before_creation :
    (list_pull_requests
      [⟨"uid", 1619, "alice", 10, [["e", "cid", "", "reply"]], "fixed"⟩,
       ⟨"cid", 1618, "alice", 5, [["a", "coord"]], "first"⟩]).map PullRequest.status
      = [.Open] ∧ PullRequestStatus.Open ≠ PullRequestStatus.Updated := by
  exact ⟨by decide, by decide⟩

/-- C2 amended: the fold does not partition by kind; it processes the batch
in a single pass in arrival order, so an update is applied only when its
target creation was inserted earlier in the batch: with the creation first
the record ends Updated with the update's body and timestamp, while with
the update first it is silently dropped and the record stays as parsed from
the creation alone. -/
theorem fold_single_pass_update_order (c u : Event)
    (hc : c.kind = KIND_PULL_REQUEST) (hu : u.kind = KIND_PULL_REQUEST_UPDATE)
    (hr : find_reply_to u = some c.id) (ht : c.created_at < u.created_at) :
    list_pull_requests [c, u] =
      [{ event_to_pull_request c with
          description := u.content
          updated_at := some u.created_at
          status := .Updated }] ∧
    list_pull_requests [u, c] = [event_to_pull_request c] := by
  have hca : (event_to_pull_request c).created_at = c.created_at := rfl
  have h1 : prStep [] c = [(c.id, event_to_pull_request c)] := by
    simp [prStep, hc, KIND_PULL_REQUEST, KIND_PULL_REQUEST_UPDATE, insertPR]
  have h2 : prStep [(c.id, event_to_pull_request c)] u =
      [(c.id, { event_to_pull_request c with
          description := u.content
          updated_at := some u.created_at
          status := .Updated })] := by
    simp [prStep, hu, hr, updatePR, applyUpdate, hca, ht]
  have h3 : prStep [] u = [] := by
    simp [prStep, hu, hr, updatePR]
  constructor
  · simp only [list_pull_requests, List.foldl_cons, List.foldl_nil, h1, h2]
    rfl
  · simp only [list_pull_requests, List.foldl_cons, List.foldl_nil, h3, h1]
    rfl

/-- C2 witness: the amended behavior at the concrete creation/update pair of
the counterexample. -/
theorem fold_single_pass_update_order_witness :
    list_pull_requests
      [⟨"cid", 1618, "alice", 5, [["a", "coord"]], "first"⟩,
       ⟨"uid", 1619, "alice", 10, [["e", "cid", "", "reply"]], "fixed"⟩] =
      [{ event_to_pull_request ⟨"cid", 1618, "alice", 5, [["a", "coord"]], "first"⟩ with
          description := (⟨"uid", 1619, "alice", 10, [["e", "cid", "", "reply"]],
            "fixed"⟩ : Event).content
          updated_at := some (⟨"uid", 1619, "alice", 10, [["e", "cid", "", "reply"]],
            "fixed"⟩ : Event).created_at
          status := .Updated }] ∧
    list_pull_requests
      [⟨"uid", 1619, "alice", 10, [["e", "cid", "", "reply"]], "fixed"⟩,
       ⟨"cid", 1618, "alice", 5, [["a", "coord"]], "first"⟩] =
      [event_to_pull_request ⟨"cid", 1618, "alice", 5, [["a", "coord"]], "first"⟩] :=
  fold_single_pass_update_order
    ⟨"cid", 1618, "alice", 5, [["a", "coord"]], "first"⟩
    ⟨"uid", 1619, "alice", 10, [["e", "cid", "", "reply"]], "fixed"⟩
    rfl rfl rfl (by decide)

/-- C3 counterexample: one creation (timestamp 5) and two updates targeting
it, timestamps 20 then 10 in batch order: the folded record carries the
body and timestamp of the batch-last update (timestamp 10), not of the
newest update by timestamp (20). -/
theorem fold_not_newest_update_by_timestamp :
    (list_pull_requests
      [⟨"cid", 1618, "alice", 5, [], "orig"⟩,
       ⟨"u2", 1619, "alice", 20, [["e", "cid", "", "reply"]], "v2"⟩,
       ⟨"u1", 1619, "alice", 10, [["e", "cid", "", "reply"]], "v1"⟩]).map
        (fun r => (r.description, r.updated_at)) = [("v1", some 10)] ∧
    (("v1", some 10) : String × Option Nat) ≠ ("v2", some 20) := by
  exact ⟨by decide, by decide⟩

/-- C3 amended: each applicable update is compared against the record's
original created_at (which updates never advance) and overwrites the
description, updated_at and status, so among several updates targeting one
creation, all with timestamps above the creation's, the update processed
last in batch order determines the folded record, whatever its timestamp
relative to the other updates. -/
theorem fold_last_arrival_update_wins (c u1 u2 : Event)
    (hc : c.kind = KIND_PULL_REQUEST)
    (hu1 : u1.kind = KIND_PULL_REQUEST_UPDATE)
    (hu2 : u2.kind = KIND_PULL_REQUEST_UPDATE)
    (hr1 : find_reply_to u1 = some c.id) (hr2 : find_reply_to u2 = some c.id)
    (ht1 : c.created_at < u1.created_at) (ht2 : c.created_at < u2.created_at) :
    list_pull_requests [c, u1, u2] =
      [{ event_to_pull_request c with
          description := u2.content
          updated_at := some u2.created_at
          status := .Updated }] := by
  have hca : (event_to_pull_request c).created_at = c.created_at := rfl
  have h1 : prStep [] c = [(c.id, event_to_pull_request c)] := by
    simp [prStep, hc, KIND_PULL_REQUEST, KIND_PULL_REQUEST_UPDATE, insertPR]
  have h2 : prStep [(c.id, event_to_pull_request c)] u1 =
      [(c.id, { event_to_pull_request c with
          description := u1.content
          updated_at := some u1.created_at
          status := .Updated })] := by
    simp [prStep, hu1, hr1, updatePR, applyUpdate, hca, ht1]
  have h3 : prStep [(c.id, { event_to_pull_request c with
          description := u1.content
          updated_at := some u1.created_at
          status := .Updated })] u2 =
      [(c.id, { event_to_pull_request c with
          description := u2.content
          updated_at := some u2.created_at
          status := .Updated })] := by
    simp [prStep, hu2, hr2, updatePR, applyUpdate, hca, ht2]
  simp only [list_pull_requests, List.foldl_cons, List.foldl_nil, h1, h2, h3]
  rfl

/-- C3 witness: the concrete batch of the counterexample, showing the
batch-last update (timestamp 10) wins over the newer one (timestamp 20). -/
theorem fold_last_arrival_update_wins_witness :
    list_pull_requests
      [⟨"cid", 1618, "alice", 5, [], "orig"⟩,
       ⟨"u2", 1619, "alice", 20, [["e", "cid", "", "reply"]], "v2"⟩,
       ⟨"u1", 1619, "alice", 10, [["e", "cid", "", "reply"]], "v1"⟩] =
      [{ event_to_pull_request ⟨"cid", 1618, "alice", 5, [], "orig"⟩ with
          description := (⟨"u1", 1619, "alice", 10, [["e", "cid", "", "reply"]],
            "v1"⟩ : Event).content
          updated_at := some (⟨"u1", 1619, "alice", 10, [["e", "cid", "", "reply"]],
            "v1"⟩ : Event).created_at
          status := .Updated }] :=
  fold_last_arrival_update_wins
    ⟨"cid", 1618, "alice", 5, [], "orig"⟩
    ⟨"u2", 1619, "alice", 20, [["e", "cid", "", "reply"]], "v2"⟩
    ⟨"u1", 1619, "alice", 10, [["e", "cid", "", "reply"]], "v1"⟩
    rfl rfl rfl rfl rfl (by decide) (by decide)

/-- The two fold passes over S produce the same map: replaying S over its
own folded map is a fixpoint, keys and lookups included. -/
theorem foldl_prStep_append_self (S : List Event) :
    (S ++ S).foldl prStep [] = S.foldl prStep [] := by
  rw [List.foldl_append]
  have hkeys : keysOf (S.foldl prStep (S.foldl prStep [])) =
      keysOf (S.foldl prStep []) := by
    apply keysOf_foldl_stable
    intro e he hk
    exact cre_id_mem_keysOf_foldl S [] e he hk
  apply assoc_ext _ _ hkeys
  · rw [hkeys]
    exact keysOf_nodup_foldl S [] List.nodup_nil
  · intro k
    rw [lookupPR_foldl, lookupPR_foldl]
    have hbase : lookupPR ([] : PRMap) k = none := rfl
    rw [hbase]
    exact foldl_stepK_replay k S none

/-- An output list_pull_requests may produce for a batch under some HashMap
iteration order: HashMap::into_values emits the folded records in an
unspecified, per-instance order, so any permutation vs of the map's entries
is admissible; the stable sort then orders vs by created_at descending. -/
def admissibleOutput (events : List Event) (out : List PullRequest) : Prop :=
  ∃ vs : List PullRequest,
    vs.Perm ((events.foldl prStep []).map Prod.snd) ∧ out = sortByCreatedDesc vs

/-- C4 counterexample: a batch of two creations with equal created_at and
distinct ids admits two different outputs, one per iteration order of the
folded map, because the stable sort keeps tied records in whichever order
the randomized HashMap emitted them; byte-identical output with stable tie
order across separate folds of the same set is therefore not guaranteed. -/
theorem fold_tie_order_not_stable :
    admissibleOutput
      [⟨"ida", 1618, "alice", 7, [], "one"⟩, ⟨"idb", 1618, "bob", 7, [], "two"⟩]
      (sortByCreatedDesc
        [event_to_pull_request ⟨"ida", 1618, "alice", 7, [], "one"⟩,
         event_to_pull_request ⟨"idb", 1618, "bob", 7, [], "two"⟩]) ∧
    admissibleOutput
      [⟨"ida", 1618, "alice", 7, [], "one"⟩, ⟨"idb", 1618, "bob", 7, [], "two"⟩]
      (sortByCreatedDesc
        [event_to_pull_request ⟨"idb", 1618, "bob", 7, [], "two"⟩,
         event_to_pull_request ⟨"ida", 1618, "alice", 7, [], "one"⟩]) ∧
    sortByCreatedDesc
        [event_to_pull_request ⟨"ida", 1618, "alice", 7, [], "one"⟩,
         event_to_pull_request ⟨"idb", 1618, "bob", 7, [], "two"⟩] ≠
      sortByCreatedDesc
        [event_to_pull_request ⟨"idb", 1618, "bob", 7, [], "two"⟩,
         event_to_pull_request ⟨"ida", 1618, "alice", 7, [], "one"⟩] := by
  refine ⟨⟨[event_to_pull_request ⟨"ida", 1618, "alice", 7, [], "one"⟩,
            event_to_pull_request ⟨"idb", 1618, "bob", 7, [], "two"⟩],
           by decide, rfl⟩,
          ⟨[event_to_pull_request ⟨"idb", 1618, "bob", 7, [], "two"⟩,
            event_to_pull_request ⟨"ida", 1618, "alice", 7, [], "one"⟩],
           by decide, rfl⟩, by decide⟩

/-- C4 amended: duplicate delivery has no effect on the fold up to the
unspecified tie order: folding S ++ S and folding S build maps with
identical lookups at every key, admit exactly the same set of outputs over
the possible HashMap iteration orders, and their outputs are permutations
of each other (sorted by created_at descending either way); only the
relative order of records with equal created_at, which follows the map's
per-instance randomized iteration order through the stable sort, is not
pinned down. -/
theorem fold_idempotent_up_to_tie_order (S : List Event) :
    (∀ k, lookupPR ((S ++ S).foldl prStep []) k = lookupPR (S.foldl prStep []) k) ∧
    (∀ out, admissibleOutput (S ++ S) out ↔ admissibleOutput S out) ∧
    (list_pull_requests (S ++ S)).Perm (list_pull_requests S) := by
  have hfold := foldl_prStep_append_self S
  refine ⟨fun k => by rw [hfold], fun out => ?_, ?_⟩
  · unfold admissibleOutput
    rw [hfold]
  · unfold list_pull_requests
    rw [hfold]

theorem mem_insertSetStr {s : List String} {r x : String} :
    x ∈ insertSetStr s r ↔ x = r ∨ x ∈ s := by
  unfold insertSetStr
  by_cases h : r ∈ s
  · simp only [if_pos h]
    constructor
    · exact Or.inr
    · rintro (rfl | hx)
      · exact h
      · exact hx
  · simp [if_neg h, List.mem_append, or_comm]

theorem mem_foldl_insertSetStr (l : List String) :
    ∀ (s : List String) (x : String),
      x ∈ l.foldl insertSetStr s ↔ x ∈ s ∨ x ∈ l := by
  induction l with
  | nil => intro s x; simp
  | cons r t ih =>
      intro s x
      rw [List.foldl_cons, ih, mem_insertSetStr]
      simp only [List.mem_cons]
      tauto

theorem mem_keys_insertMapStr (f : List (String × String)) (k v r : String) :
    r ∈ (insertMapStr f k v).map Prod.fst ↔ r = k ∨ r ∈ f.map Prod.fst := by
  induction f with
  | nil => simp [insertMapStr]
  | cons p rest ih =>
      obtain ⟨k0, v0⟩ := p
      by_cases h : k0 = k
      · subst h
        have hstep : insertMapStr ((k0, v0) :: rest) k0 v = (k0, v) :: rest := by
          simp [insertMapStr]
        rw [hstep]
        simp only [List.map_cons, List.mem_cons]
        tauto
      · simp only [insertMapStr, if_neg h, List.map_cons, List.mem_cons, ih]
        tauto

theorem mem_keys_foldl_insertMapStr (l : List (String × String)) :
    ∀ (f : List (String × String)) (r : String),
      r ∈ (l.foldl (fun acc p => insertMapStr acc p.1 p.2) f).map Prod.fst ↔
        r ∈ f.map Prod.fst ∨ r ∈ l.map Prod.fst := by
  induction l with
  | nil => intro f r; simp
  | cons p t ih =>
      intro f r
      rw [List.foldl_cons, ih, mem_keys_insertMapStr]
      simp only [List.map_cons, List.mem_cons]
      tauto

theorem sendAccum_spec (outputs : List SendOutput) :
    ∀ (acc : List String × List (String × String)) (r : String),
      (r ∈ (outputs.foldl sendAccumStep acc).1 ↔
        r ∈ acc.1 ∨ ∃ o ∈ outputs, r ∈ o.success) ∧
      (r ∈ (outputs.foldl sendAccumStep acc).2.map Prod.fst ↔
        r ∈ acc.2.map Prod.fst ∨ ∃ o ∈ outputs, r ∈ o.failed.map Prod.fst) := by
  induction outputs with
  | nil => intro acc r; simp
  | cons o t ih =>
      intro acc r
      rw [List.foldl_cons]
      obtain ⟨ih1, ih2⟩ := ih (sendAccumStep acc o) r
      constructor
      · rw [ih1,
          show (sendAccumStep acc o).1 = o.success.foldl insertSetStr acc.1 from rfl,
          mem_foldl_insertSetStr]
        simp only [List.exists_mem_cons_iff]
        tauto
      · rw [ih2,
          show (sendAccumStep acc o).2 =
            o.failed.foldl (fun f p => insertMapStr f p.1 p.2) acc.2 from rfl,
          mem_keys_foldl_insertMapStr]
        simp only [List.exists_mem_cons_iff]
        tauto

/-- C8 amended: announce_repository reports every configured relay as a
success and no failures whatever the transport outcome; the send command,
by contrast, does report per endpoint: its success set holds exactly the
relays that accepted some event, its failure map keys exactly the relays
that rejected some event (each with a reason), and the overall result
degrades to a hard failure only when the success set is empty, that is,
when no relay accepted anything. -/
theorem send_reports_per_endpoint (outputs : List SendOutput) :
    (∀ r, r ∈ (accumulateOutputs outputs).1 ↔ ∃ o ∈ outputs, r ∈ o.success) ∧
    (∀ r, r ∈ (accumulateOutputs outputs).2.map Prod.fst ↔
      ∃ o ∈ outputs, r ∈ o.failed.map Prod.fst) ∧
    ((accumulateOutputs outputs).1 = [] ↔ ∀ o ∈ outputs, o.success = []) := by
  have h1 : ∀ r, r ∈ (accumulateOutputs outputs).1 ↔ ∃ o ∈ outputs, r ∈ o.success := by
    intro r
    have := (sendAccum_spec outputs ([], []) r).1
    simpa [accumulateOutputs] using this
  have h2 : ∀ r, r ∈ (accumulateOutputs outputs).2.map Prod.fst ↔
      ∃ o ∈ outputs, r ∈ o.failed.map Prod.fst := by
    intro r
    have := (sendAccum_spec outputs ([], []) r).2
    simpa [accumulateOutputs] using this
  refine ⟨h1, h2, ?_⟩
  rw [List.eq_nil_iff_forall_not_mem]
  constructor
  · intro h o ho
    rw [List.eq_nil_iff_forall_not_mem]
    intro r hr
    exact h r ((h1 r).mpr ⟨o, ho, hr⟩)
  · intro h r hr
    obtain ⟨o, ho, hro⟩ := (h1 r).mp hr
    rw [h o ho] at hro
    exact absurd hro (List.not_mem_nil r)

/-- C5: on a repository with two reachable commits (times 1 and 2),
get_root_commit returns the chronologically-last commit c2, while the spec
requires the chronologically-first commit c1; with no commits it fails as
specified.  The walk is sorted oldest-first (TIME | REVERSE) but the loop
keeps the walk's last element, which is the newest commit. -/
theorem root_commit_returns_newest_commit :
    get_root_commit [⟨"c1", 1⟩, ⟨"c2", 2⟩] = .ok "c2" ∧
    (chronologicallyFirst [⟨"c1", 1⟩, ⟨"c2", 2⟩]).map Commit.id = some "c1" ∧
    "c2" ≠ "c1" ∧
    get_root_commit [] = .error "No commits found in repository" := by
  refine ⟨rfl, rfl, ?_, rfl⟩
  decide

/-- C9: logout clears only the active pointer: on success the stored
identity list is returned unchanged (no identity deleted, no ciphertext or
nonce modified) with the active pointer cleared; with no active identity it
fails with the no-active-account error before any save, so the vault file
is untouched. -/
theorem logout_clears_active_only (s : AccountStorage) :
    (s.active_npub = none → logout s = .error "No active account to logout") ∧
    (∀ n, s.active_npub = some n →
      logout s = .ok { accounts := s.accounts, active_npub := none }) := by
  constructor
  · intro h
    simp [logout, h]
  · intro n h
    simp [logout, h]

/-- C9 witness: a concrete vault with one identity and an active pointer;
logout keeps the identity and clears the pointer. -/
theorem logout_clears_active_only_witness :
    logout { accounts := [⟨"npub1a", [1, 2], [3]⟩], active_npub := some "npub1a" } =
      .ok { accounts := [⟨"npub1a", [1, 2], [3]⟩], active_npub := none } :=
  (logout_clears_active_only
    { accounts := [⟨"npub1a", [1, 2], [3]⟩], active_npub := some "npub1a" }).2
    "npub1a" rfl

/-- C6 counterexample: assemble with an empty patch list yields exactly one
message (the summary), not zero messages, and does not fail: there is no
NoPatches failure in create_pull_request_event. -/
theorem assemble_empty_yields_one_message :
    (create_pull_request_event ⟨"sk", "pk"⟩ "30617:pk:repo" "T" "D" [] "root" none 0).length
      = 1 ∧ (1 : Nat) ≠ 0 := by
  exact ⟨rfl, by decide⟩

/-- C6 amended: assemble with an empty patch list succeeds and emits exactly
the summary message alone, of kind PullRequest and with no reference-event
tag; the caller short-circuits before assembling: with no patches the send
command publishes nothing and returns success. -/
theorem assemble_empty_behavior (keys : Keys) (coord T D root : String) (now : Nat)
    (mk : List String → List Event) :
    create_pull_request_event keys coord T D [] root none now =
      [signEvent keys KIND_PULL_REQUEST D
        [["a", coord], ["subject", T], ["c", root]] now] ∧
    handle_send_publish_plan [] mk = none := by
  exact ⟨rfl, rfl⟩

/-- C8 counterexample: when the transport rejects the announcement at the
only configured relay, announce_repository still reports that relay as a
success and reports no failure: the success and failure sets do not match
the per-endpoint outcome. -/
theorem announce_ignores_relay_outcome :
    (announce_repository_result ["wss://r1.example"] "repo" "npub1a" "ev"
        ⟨[], [("wss://r1.example", "rejected")]⟩).successes = ["wss://r1.example"] ∧
    (announce_repository_result ["wss://r1.example"] "repo" "npub1a" "ev"
        ⟨[], [("wss://r1.example", "rejected")]⟩).failures = [] ∧
    ¬ ((announce_repository_result ["wss://r1.example"] "repo" "npub1a" "ev"
        ⟨[], [("wss://r1.example", "rejected")]⟩).failures.map Prod.fst
        = ["wss://r1.example"]) := by
  refine ⟨rfl, rfl, ?_⟩
  decide

end Gitsmith
